import Mathlib

/-!
Shallow embedding of `psched.py`, a genetic-algorithm event scheduler.

Modelling conventions, kept as close to the Python source as possible:

* `Time` (Python class `Time`, a `datetime` anchored at 2019-01-01) is the
  number of minutes since the anchor, a `Nat`.  Python's `__add__` adds
  minutes (`timedelta`), `__lt__`/`__gt__` compare the underlying
  `datetime`s; both correspond exactly to `Nat` addition and order on the
  minute count.
* A constraint (Python closure returned by `not_before` / `not_after`)
  is a function `Time → Bool`; Python sums the returned booleans, which
  `constraintValue` reflects by mapping `true ↦ 1`, `false ↦ 0`.
* Agenda items (Python tuples `(name, constraints, duration)` yielded by
  `Events.iterate`) are the structure `Item`.
* The `numpy` random draws in `Schedule.compete` are modelled as explicit
  adversarial inputs (`Draw`): `np.random.randint(high)` returns
  `seed % high` for an arbitrary seed when `high > 0` and raises
  `ValueError` when `high = 0` (modelled by `Option.none`); out-of-bounds
  `numpy` array indexing raises `IndexError`, modelled by `List.getElem?`
  returning `none`.  `np.random.rand() < pswap` is an arbitrary boolean.
* `np.argsort`-based joint sorting in `Schedule.sort_by_rank` is modelled
  by sorting the list of `(score, order)` pairs by score; like `argsort`
  this produces a score-ascending reordering of the same pairs.
-/

/-- Python `Time`: minutes since the fixed anchor date. -/
abbrev Time := Nat

/-- Python `Time(hour, minute)`: `datetime(2019, 1, 1, hour, minute)` as minutes. -/
def Time.ofHM (hour minute : Nat) : Time := 60 * hour + minute

/-- A constraint closure, as produced by `not_before` / `not_after`. -/
abbrev Constraint := Time → Bool

/-- Python `not_before(time)`: returns `checker(x) = x < t`. -/
def not_before (t : Time) : Constraint := fun x => decide (x < t)

/-- Python `not_after(time)`: returns `checker(x) = x > t`. -/
def not_after (t : Time) : Constraint := fun x => decide (t < x)

/-- Python implicitly coerces the boolean returned by a checker to an
integer when summing violations: `True ↦ 1`, `False ↦ 0`. -/
def constraintValue (f : Constraint) (t : Time) : Nat := if f t then 1 else 0

/-- Python `sum([f(t) for f in constraints])`. -/
def violSum (cs : List Constraint) (t : Time) : Nat :=
  (cs.map (fun f => constraintValue f t)).sum

/-- One agenda item yielded by `Events.iterate`:
`(event name, constraints, duration)`. -/
structure Item where
  name : String
  constraints : List Constraint
  duration : Nat

/-- Placeholder item used only to give `List.getD` a default. -/
def dummyItem : Item := ⟨"", [], 0⟩

/-- Python class `Events`: the event list plus the break/lunch parameters. -/
structure Events where
  events : List (String × List Constraint)
  break_every : Nat := 5
  lunch_after : Nat := 10
  lunch_duration : Nat := 60
  break_duration : Nat := 15
  event_duration : Nat := 15

/-- The item `list(self.events[idx]) + [self.event_duration]` yielded for a
real event.  (`order` is always a permutation of the valid indices, so the
`getD` default is never reached in any run the theorems below talk about.) -/
def Events.eventItem (E : Events) (idx : Nat) : Item :=
  ⟨(E.events.getD idx ("", [])).1, (E.events.getD idx ("", [])).2, E.event_duration⟩

/-- The synthetic item `('Lunch', [], self.lunch_duration)`. -/
def Events.lunchItem (E : Events) : Item := ⟨"Lunch", [], E.lunch_duration⟩

/-- The synthetic item `('Break', [], self.break_duration)`. -/
def Events.breakItem (E : Events) : Item := ⟨"Break", [], E.break_duration⟩

/-- The loop body of `Events.iterate`, with the two counters `i` (break
counter, reset to `0` when a lunch is emitted) and `k` (lunch counter,
never reset) made explicit.  Mirrors the source line by line:
`yield event; i += 1; k += 1; if k == lunch_after: yield Lunch; i = 0;
elif i == break_every: yield Break`. -/
def Events.go (E : Events) : List Nat → Nat → Nat → List Item
  | [], _, _ => []
  | idx :: rest, i, k =>
    E.eventItem idx ::
      (if k + 1 = E.lunch_after then E.lunchItem :: Events.go E rest 0 (k + 1)
       else if i + 1 = E.break_every then E.breakItem :: Events.go E rest (i + 1) (k + 1)
       else Events.go E rest (i + 1) (k + 1))

/-- Python `Events.iterate(order)`: the fully expanded agenda. -/
def Events.iterate (E : Events) (order : List Nat) : List Item :=
  Events.go E order 0 0

/-- Number of synthetic `Lunch` items in an expanded agenda. -/
def lunchCount (items : List Item) : Nat :=
  items.countP (fun it => it.name == "Lunch")

/-- Number of synthetic `Break` items in an expanded agenda. -/
def breakCount (items : List Item) : Nat :=
  items.countP (fun it => it.name == "Break")

/-- A stakeholder: its focus set (a Python `set`, hence a duplicate-free
list of event names) and its constraints. -/
structure Stakeholder where
  focus : List String
  constraints : List Constraint

/-- Python class `WaitTimeCounter`: the per-stakeholder mutable state. -/
structure WaitTimeCounter where
  observed : List String
  constraints : List Constraint
  active : Bool
  total_time : Nat

/-- `WaitTimeCounter(observed, constraints)`: fresh counter for one pass. -/
def WaitTimeCounter.init (sh : Stakeholder) : WaitTimeCounter :=
  ⟨sh.focus, sh.constraints, false, 0⟩

/-- Python `WaitTimeCounter.append(name, duration, t)`: returns the
violation count for this step together with the updated counter.
`observed.index(name)` / `pop(i)` remove the first occurrence, i.e.
`List.erase`. -/
def WaitTimeCounter.append (c : WaitTimeCounter) (name : String) (duration : Nat)
    (t : Time) : Nat × WaitTimeCounter :=
  let obs := if name ∈ c.observed then c.observed.erase name else c.observed
  let act := if name ∈ c.observed then true else c.active
  let total := if act then c.total_time + duration else c.total_time
  let v := if act then violSum c.constraints t else 0
  let act2 := if obs = [] then false else act
  (v, ⟨obs, c.constraints, act2, total⟩)

/-- The scan inside `Schedule.individual_wait_times`: walk the expanded
agenda, at each item adding the item's own constraint violations and every
stakeholder's `append` violations, then advancing the clock by the item's
duration. -/
def iwtGo : List Item → List (String × WaitTimeCounter) → Time → Nat →
    List (String × WaitTimeCounter) × Nat
  | [], shs, _, viol => (shs, viol)
  | it :: rest, shs, t, viol =>
    let stepped := shs.map (fun p => (p.1, p.2.append it.name it.duration t))
    iwtGo rest (stepped.map (fun p => (p.1, p.2.2))) (t + it.duration)
      (viol + violSum it.constraints t + (stepped.map (fun p => p.2.1)).sum)

/-- Python `Schedule.individual_wait_times(order)`: the per-stakeholder
total times and the overall violation count. -/
def individual_wait_times (E : Events) (SH : List (String × Stakeholder))
    (t0 : Time) (order : List Nat) : List (String × Nat) × Nat :=
  let r := iwtGo (E.iterate order) (SH.map (fun p => (p.1, WaitTimeCounter.init p.2))) t0 0
  (r.1.map (fun p => (p.1, p.2.total_time)), r.2)

/-- Python `Schedule.score(order) = 1000 * violations + sum(wait_times.values())`. -/
def score (E : Events) (SH : List (String × Stakeholder)) (t0 : Time)
    (order : List Nat) : Nat :=
  let r := individual_wait_times E SH t0 order
  1000 * r.2 + (r.1.map (fun p => p.2)).sum

/-- Spec-side reading of the score: one single stakeholder's pass over the
agenda, returning its final counter and its accumulated violations. -/
def runWTC : List Item → WaitTimeCounter → Time → WaitTimeCounter × Nat
  | [], c, _ => (c, 0)
  | it :: rest, c, t =>
    let s := c.append it.name it.duration t
    let r := runWTC rest s.2 (t + it.duration)
    (r.1, s.1 + r.2)

/-- Spec-side reading: the items' own constraint violations, each evaluated
at the item's start time, with the clock advanced by each duration. -/
def itemViolations : List Item → Time → Nat
  | [], _ => 0
  | it :: rest, t => violSum it.constraints t + itemViolations rest (t + it.duration)

/-- The score as the specification words it: `1000 ×` (item-constraint
violations plus every stakeholder's wait-counter violations) plus the sum
of all stakeholders' `total_time`, each stakeholder evaluated by its own
independent pass. -/
def scoreSpec (E : Events) (SH : List (String × Stakeholder)) (t0 : Time)
    (order : List Nat) : Nat :=
  let items := E.iterate order
  1000 * (itemViolations items t0 +
      (SH.map (fun p => (runWTC items (WaitTimeCounter.init p.2) t0).2)).sum) +
    (SH.map (fun p => (runWTC items (WaitTimeCounter.init p.2) t0).1.total_time)).sum

/-- `np.random.randint(high)`: raises `ValueError` when `high = 0`
(modelled `none`); otherwise a value in `[0, high)`, modelled as
`seed % high` for an adversarially chosen seed. -/
def randint (high seed : Nat) : Option Nat :=
  if high = 0 then none else some (seed % high)

/-- The random draws one iteration of the `compete` loop consumes:
the parent-selection seed for `np.random.randint(nbest)`, the boolean
`np.random.rand() < pswap`, and the two swap-index seeds for
`np.random.randint(self.order.shape[1], size=2)`. -/
structure Draw where
  pick : Nat
  doSwap : Bool
  s1 : Nat
  s2 : Nat

/-- Python `order[i], order[j] = order[j], order[i]`. -/
def swapPos (l : List Nat) (i j : Nat) : List Nat :=
  let a := l.getD i 0
  let b := l.getD j 0
  (l.set i b).set j a

/-- One iteration of the `compete` loop: pick a parent index among the
first `nbest`, copy that candidate, and with the drawn probability swap two
uniformly drawn positions.  `none` models the `ValueError` from
`np.random.randint(0)` (zero events) and the `IndexError` from
`self.order[idx]` with `idx` past the population. -/
def breedOne (orders : List (List Nat)) (nbest : Nat) (d : Draw) : Option (List Nat) := do
  let idx ← randint nbest d.pick
  let parent ← orders[idx]?
  if d.doSwap then do
    let i ← randint parent.length d.s1
    let j ← randint parent.length d.s2
    pure (swapPos parent i j)
  else
    pure parent

/-- The breeding loop of `Schedule.compete(nbest, pswap)`: one `Draw` per
new candidate; `none` if any iteration raises. -/
def compete (orders : List (List Nat)) (nbest : Nat) (draws : List Draw) :
    Option (List (List Nat)) :=
  draws.mapM (breedOne orders nbest)

/-- Python `Schedule.sort_by_rank` (an `np.argsort` on the scores applied
to both arrays): sort the `(score, candidate)` pairs ascending by score. -/
def sort_by_rank (pairs : List (Nat × List Nat)) : List (Nat × List Nat) :=
  List.insertionSort (fun p q => p.1 ≤ q.1) pairs

/-- Python `Schedule.refresh`: recompute every candidate's score and sort
candidates and scores jointly, ascending by score.  Returns the new
`(order, scores)` arrays. -/
def refresh (E : Events) (SH : List (String × Stakeholder)) (t0 : Time)
    (orders : List (List Nat)) : List (List Nat) × List Nat :=
  let sorted := sort_by_rank (orders.map (fun o => (score E SH t0 o, o)))
  (sorted.map (fun p => p.2), sorted.map (fun p => p.1))

/-- State evolution of a `WaitTimeCounter` ignores the clock (only the
returned violation count reads `t`), so the counter after a pass is a fold
of this step. -/
def wtcStep (c : WaitTimeCounter) (it : Item) : WaitTimeCounter :=
  (c.append it.name it.duration 0).2

/-- The counter state after processing a list of items. -/
def stateAfter (c : WaitTimeCounter) (items : List Item) : WaitTimeCounter :=
  items.foldl wtcStep c

/-- Closed form: some focus name has already been sighted. -/
def seenAny (F : List String) (p : List Item) : Bool :=
  p.any (fun it => decide (it.name ∈ F))

/-- Closed form: every focus name has already been sighted. -/
def seenAll (F : List String) (p : List Item) : Bool :=
  F.all (fun f => decide (f ∈ p.map Item.name))

/-- Closed form: the item at position `k` is counted into `total_time`,
i.e. some focus name occurs in positions `≤ k` and not all focus names
occur strictly before `k`. -/
def countedAt (F : List String) (p : List Item) (k : Nat) : Bool :=
  seenAny F (p.take (k + 1)) && !(seenAll F (p.take k))

/-- Closed form of the accumulated `total_time` after a full pass. -/
def waitClosed (F : List String) (p : List Item) : Nat :=
  Finset.sum (Finset.range p.length)
    (fun k => if countedAt F p k then (p.getD k dummyItem).duration else 0)

/-- `active` after processing the prefix of the first `m` items, starting
from a fresh counter. -/
def activeAfter (sh : Stakeholder) (p : List Item) (m : Nat) : Bool :=
  (stateAfter (WaitTimeCounter.init sh) (p.take m)).active

/-- Concrete configurations used by counterexamples and witnesses below.
`exC1` has `lunch_after = 1`, so the claim "a Lunch after every
`lunch_after`-th event" would require two Lunches in a 2-event agenda. -/
def exC1 : Events := { events := [("A", []), ("B", [])], lunch_after := 1 }

/-- `break_every = 2` and a lunch threshold never reached: the claim "a
Break after every `break_every`-th event since the last break" would
require two Breaks in a 4-event agenda. -/
def exC2 : Events :=
  { events := [("A", []), ("B", []), ("C", []), ("D", [])], break_every := 2, lunch_after := 100 }

/-- Two events `A`, `X` with default parameters: expands to just the two
events. -/
def exAX : Events := { events := [("A", []), ("X", [])] }

/-- Five distinctly named events with the default parameters
(`break_every = 5`): the expansion ends in a trailing Break. -/
def exFive : Events :=
  { events := [("A", []), ("B", []), ("C", []), ("D", []), ("E", [])] }

/-- Events named by their index, used for generic witnesses. -/
def exLunchW : Events := { events := (List.range 10).map (fun n => (toString n, [])) }

/-- A concrete stakeholder for the wait-time witnesses. -/
def exShAB : Stakeholder := ⟨["A", "B"], []⟩

/-- The empty-event configuration used for the degenerate-input claim. -/
def exEmpty : Events := { events := [] }

/-- A stakeholder map used by the degenerate-input claim. -/
def exSH : List (String × Stakeholder) := [("s", ⟨["A"], []⟩)]

/-- Items fed to the wait-time window witness. -/
def exItems : List Item := [⟨"A", [], 10⟩, ⟨"X", [], 5⟩, ⟨"B", [], 20⟩, ⟨"Y", [], 7⟩]

instance scoreRelTotal : IsTotal (Nat × List Nat) (fun p q => p.1 ≤ q.1) :=
⟨fun p q => Nat.le_total p.1 q.1⟩

instance scoreRelTrans : IsTrans (Nat × List Nat) (fun p q => p.1 ≤ q.1) :=
⟨fun _ _ _ h1 h2 => Nat.le_trans h1 h2⟩

lemma go_cons (E : Events) (idx : Nat) (rest : List Nat) (i k : Nat) :
    Events.go E (idx :: rest) i k =
      E.eventItem idx ::
        (if k + 1 = E.lunch_after then E.lunchItem :: Events.go E rest 0 (k + 1)
         else if i + 1 = E.break_every then E.breakItem :: Events.go E rest (i + 1) (k + 1)
         else Events.go E rest (i + 1) (k + 1)) := rfl

lemma countP_go_of_lunch (E : Events) (p : Item → Bool) (hl : p E.lunchItem = true)
    (he : ∀ idx, p (E.eventItem idx) = false) (hb : p E.breakItem = false) :
    ∀ (rest : List Nat) (i k : Nat),
      (Events.go E rest i k).countP p =
        if k < E.lunch_after ∧ E.lunch_after ≤ k + rest.length then 1 else 0 := by
  intro rest
  induction rest with
  | nil =>
    intro i k
    rw [if_neg (by simp only [List.length_nil, Nat.add_zero]; omega)]
    simp [Events.go]
  | cons idx rest ih =>
    intro i k
    by_cases hk : k + 1 = E.lunch_after
    · simp only [Events.go, if_pos hk, List.countP_cons, he, hl, ih]
      split_ifs <;> simp_all <;> try omega
    · by_cases hi : i + 1 = E.break_every
      · simp only [Events.go, if_neg hk, if_pos hi, List.countP_cons, he, hb, ih]
        split_ifs <;> simp_all <;> try omega
      · simp only [Events.go, if_neg hk, if_neg hi, List.countP_cons, he, ih]
        split_ifs <;> simp_all <;> try omega

lemma countP_go_of_break (E : Events) (p : Item → Bool)
    (he : ∀ idx, p (E.eventItem idx) = false) (hb : p E.breakItem = true) :
    ∀ (rest : List Nat) (i k : Nat), k + rest.length < E.lunch_after →
      (Events.go E rest i k).countP p =
        if i < E.break_every ∧ E.break_every ≤ i + rest.length then 1 else 0 := by
  intro rest
  induction rest with
  | nil =>
    intro i k _
    rw [if_neg (by simp only [List.length_nil, Nat.add_zero]; omega)]
    simp [Events.go]
  | cons idx rest ih =>
    intro i k hla
    have hk : k + 1 ≠ E.lunch_after := by simp at hla; omega
    have hla2 : (k + 1) + rest.length < E.lunch_after := by simp at hla; omega
    by_cases hi : i + 1 = E.break_every
    · simp only [Events.go, if_neg hk, if_pos hi, List.countP_cons, he, hb, ih _ _ hla2]
      split_ifs <;> simp_all <;> try omega
    · simp only [Events.go, if_neg hk, if_neg hi, List.countP_cons, he, ih _ _ hla2]
      split_ifs <;> simp_all <;> try omega

lemma go_cons_ne_nil (E : Events) (x : Nat) (rest : List Nat) (i k : Nat) :
    Events.go E (x :: rest) i k ≠ [] := by
  simp [Events.go]

lemma getLast?_cons_of_ne_nil {α : Type} (a : α) {l : List α} (h : l ≠ []) :
    (a :: l).getLast? = l.getLast? := by
  cases l with
  | nil => exact absurd rfl h
  | cons b t => exact List.getLast?_cons_cons

lemma go_append_of_lunch (E : Events) :
    ∀ (xs ys : List Nat) (i k : Nat), 0 < xs.length → k + xs.length = E.lunch_after →
      Events.go E (xs ++ ys) i k = Events.go E xs i k ++ Events.go E ys 0 E.lunch_after := by
  intro xs
  induction xs with
  | nil => intro ys i k h0 _; simp at h0
  | cons x xs ih =>
    intro ys i k _ hlen
    cases xs with
    | nil =>
      have hk : k + 1 = E.lunch_after := by simpa using hlen
      simp [Events.go, hk]
    | cons y ys2 =>
      have hk : k + 1 ≠ E.lunch_after := by simp at hlen; omega
      have hlen2 : (k + 1) + (y :: ys2).length = E.lunch_after := by
        simp at hlen ⊢; omega
      have hih := ih ys (i + 1) (k + 1) (by simp) hlen2
      simp only [List.cons_append] at hih
      conv_lhs => rw [List.cons_append, go_cons]
      conv_rhs => rw [go_cons]
      simp only [if_neg hk]
      by_cases hi : i + 1 = E.break_every
      · simp only [if_pos hi, List.cons_append]
        rw [hih]
      · simp only [if_neg hi, List.cons_append]
        rw [hih]

lemma getLast?_go_of_lunch (E : Events) :
    ∀ (rest : List Nat) (i k : Nat), 0 < rest.length → k + rest.length = E.lunch_after →
      (Events.go E rest i k).getLast? = some E.lunchItem := by
  intro rest
  induction rest with
  | nil => intro i k h0 _; simp at h0
  | cons x xs ih =>
    intro i k _ hlen
    cases xs with
    | nil =>
      have hk : k + 1 = E.lunch_after := by simpa using hlen
      simp [Events.go, hk]
    | cons y ys2 =>
      have hk : k + 1 ≠ E.lunch_after := by simp at hlen; omega
      have hlen2 : (k + 1) + (y :: ys2).length = E.lunch_after := by
        simp at hlen ⊢; omega
      have hne : Events.go E (y :: ys2) (i + 1) (k + 1) ≠ [] :=
        go_cons_ne_nil E y ys2 (i + 1) (k + 1)
      by_cases hi : i + 1 = E.break_every
      · rw [show Events.go E (x :: y :: ys2) i k =
              E.eventItem x :: E.breakItem :: Events.go E (y :: ys2) (i + 1) (k + 1) by
            simp [Events.go, hk, hi]]
        rw [List.getLast?_cons_cons, getLast?_cons_of_ne_nil _ hne]
        exact ih _ _ (by simp) hlen2
      · rw [show Events.go E (x :: y :: ys2) i k =
              E.eventItem x :: Events.go E (y :: ys2) (i + 1) (k + 1) by
            simp [Events.go, hk, hi]]
        rw [getLast?_cons_of_ne_nil _ hne]
        exact ih _ _ (by simp) hlen2

lemma getLast?_go_of_break (E : Events) :
    ∀ (rest : List Nat) (i k : Nat), 0 < rest.length → i + rest.length = E.break_every →
      k + rest.length < E.lunch_after →
      (Events.go E rest i k).getLast? = some E.breakItem := by
  intro rest
  induction rest with
  | nil => intro i k h0 _ _; simp at h0
  | cons x xs ih =>
    intro i k _ hlen hla
    have hk : k + 1 ≠ E.lunch_after := by simp at hla; omega
    cases xs with
    | nil =>
      have hi : i + 1 = E.break_every := by simpa using hlen
      simp [Events.go, hk, hi]
    | cons y ys2 =>
      have hi : i + 1 ≠ E.break_every := by simp at hlen; omega
      have hlen2 : (i + 1) + (y :: ys2).length = E.break_every := by
        simp at hlen ⊢; omega
      have hla2 : (k + 1) + (y :: ys2).length < E.lunch_after := by
        simp at hla ⊢; omega
      have hne : Events.go E (y :: ys2) (i + 1) (k + 1) ≠ [] :=
        go_cons_ne_nil E y ys2 (i + 1) (k + 1)
      rw [show Events.go E (x :: y :: ys2) i k =
            E.eventItem x :: Events.go E (y :: ys2) (i + 1) (k + 1) by
          simp [Events.go, hk, hi]]
      rw [getLast?_cons_of_ne_nil _ hne]
      exact ih _ _ (by simp) hlen2 hla2

lemma go_pure_events (E : Events) :
    ∀ (rest : List Nat) (i k : Nat), k + rest.length < E.lunch_after →
      E.break_every ≤ i → Events.go E rest i k = rest.map E.eventItem := by
  intro rest
  induction rest with
  | nil => intro i k _ _; simp [Events.go]
  | cons x xs ih =>
    intro i k hla hbe
    have hk : k + 1 ≠ E.lunch_after := by simp at hla; omega
    have hi : i + 1 ≠ E.break_every := by omega
    have hla2 : (k + 1) + xs.length < E.lunch_after := by simp at hla; omega
    simp only [Events.go, if_neg hk, if_neg hi, List.map_cons]
    rw [ih _ _ hla2 (by omega)]

lemma go_break_split (E : Events) :
    ∀ (rest : List Nat) (i k : Nat), k + rest.length < E.lunch_after →
      i < E.break_every → E.break_every ≤ i + rest.length →
      Events.go E rest i k =
        (rest.take (E.break_every - i)).map E.eventItem ++
          E.breakItem :: Events.go E (rest.drop (E.break_every - i))
            E.break_every (k + (E.break_every - i)) := by
  intro rest
  induction rest with
  | nil => intro i k _ hlt hge; simp at hge; omega
  | cons x xs ih =>
    intro i k hla hlt hge
    have hk : k + 1 ≠ E.lunch_after := by simp at hla; omega
    have hla2 : (k + 1) + xs.length < E.lunch_after := by simp at hla; omega
    by_cases hi : i + 1 = E.break_every
    · have htk : E.break_every - i = 1 := by omega
      simp only [Events.go, if_neg hk, if_pos hi, htk, List.take_succ_cons, List.take_zero,
        List.drop_succ_cons, List.drop_zero, List.map_cons, List.map_nil, List.cons_append,
        List.nil_append]
      rw [hi]
    · have htk : E.break_every - i = (E.break_every - (i + 1)) + 1 := by omega
      simp only [Events.go, if_neg hk, if_neg hi]
      rw [ih _ _ hla2 (by omega) (by simp at hge ⊢; omega), htk]
      simp only [List.take_succ_cons, List.drop_succ_cons, List.map_cons, List.cons_append]
      have : k + (E.break_every - (i + 1) + 1) = k + 1 + (E.break_every - (i + 1)) := by omega
      rw [this]

lemma eventItem_name_ne (E : Events) (s : String) (hs : ∀ e ∈ E.events, e.1 ≠ s)
    (hd : s ≠ "") : ∀ idx, (E.eventItem idx).name ≠ s := by
  intro idx
  simp only [Events.eventItem]
  by_cases h : idx < E.events.length
  · rw [List.getD_eq_getElem _ _ h]
    exact hs _ (List.getElem_mem h)
  · rw [List.getD_eq_default _ _ (by omega)]
    exact fun hc => hd hc.symm

/-- C1, counterexample: with `lunch_after = 1` and two events, the claim
"a Lunch after every `lunch_after`-th event, resetting the lunch counter"
requires at least two Lunch items in the expansion; `Events.iterate`
emits exactly one (`['A', 'Lunch', 'B']`), because the lunch counter `k`
is never reset. -/
theorem lunch_not_emitted_every_cycle : ¬ 2 ≤ lunchCount (exC1.iterate [0, 1]) := by
  decide

/-- C1, amended: `Events.iterate` emits exactly one Lunch item, immediately
after the `lunch_after`-th event; at that point the break counter is reset
to zero (the remainder of the agenda is expanded as `go … 0 lunch_after`),
but the lunch counter is never reset, so no later Lunch occurs. -/
theorem lunch_once_and_break_reset (E : Events) (order : List Nat)
    (h1 : 0 < E.lunch_after) (h2 : E.lunch_after ≤ order.length)
    (hL : ∀ e ∈ E.events, e.1 ≠ "Lunch") :
    E.iterate order =
        Events.go E (order.take E.lunch_after) 0 0 ++
          Events.go E (order.drop E.lunch_after) 0 E.lunch_after
      ∧ (Events.go E (order.take E.lunch_after) 0 0).getLast? = some E.lunchItem
      ∧ lunchCount (E.iterate order) = 1 := by
  have hlen : (order.take E.lunch_after).length = E.lunch_after := by
    rw [List.length_take]; omega
  refine ⟨?_, ?_, ?_⟩
  · conv_lhs => rw [Events.iterate, ← List.take_append_drop E.lunch_after order]
    exact go_append_of_lunch E _ _ 0 0 (by omega) (by omega)
  · exact getLast?_go_of_lunch E _ 0 0 (by omega) (by omega)
  · rw [Events.iterate, lunchCount,
      countP_go_of_lunch E _ (by simp [Events.lunchItem])
        (fun idx => by
          have := eventItem_name_ne E "Lunch" hL (by decide) idx
          simpa using this)
        (by simp [Events.breakItem]) order 0 0]
    rw [if_pos ⟨h1, by omega⟩]

/-- Witness for `lunch_once_and_break_reset` at `exC1` and the
permutation `[0, 1]`. -/
theorem lunch_once_and_break_reset_witness :
    exC1.iterate [0, 1] =
        Events.go exC1 ([0, 1].take exC1.lunch_after) 0 0 ++
          Events.go exC1 ([0, 1].drop exC1.lunch_after) 0 exC1.lunch_after
      ∧ (Events.go exC1 ([0, 1].take exC1.lunch_after) 0 0).getLast? = some exC1.lunchItem
      ∧ lunchCount (exC1.iterate [0, 1]) = 1 :=
  lunch_once_and_break_reset exC1 [0, 1] (by decide) (by decide) (by decide)

/-- C2, counterexample: with `break_every = 2`, `lunch_after = 100` and
four events, the claim "a Break after every `break_every`-th event since
the last break/lunch" requires two Breaks; `Events.iterate` emits exactly
one (`['A', 'B', 'Break', 'C', 'D']`), because the break counter `i` is
not reset when a Break is emitted. -/
theorem break_not_emitted_every_block :
    ¬ 2 ≤ breakCount (exC2.iterate [0, 1, 2, 3]) := by
  decide

/-- C2, amended: between two Lunches (here: in an agenda whose permutation
is too short to trigger the single Lunch at all) `Events.iterate` emits
exactly one Break, immediately after the `break_every`-th event; the break
counter is reset only by a Lunch, never by the Break itself, so no second
Break follows even after another `break_every` events.  The lunch counter
is unaffected: the expansion is plain events on both sides of the Break. -/
theorem break_once_between_lunches (E : Events) (order : List Nat)
    (hla : order.length < E.lunch_after) (hB : ∀ e ∈ E.events, e.1 ≠ "Break")
    (h1 : 0 < E.break_every) (h2 : E.break_every ≤ order.length) :
    E.iterate order =
        (order.take E.break_every).map E.eventItem ++
          E.breakItem :: (order.drop E.break_every).map E.eventItem
      ∧ breakCount (E.iterate order) = 1 := by
  constructor
  · rw [Events.iterate, go_break_split E order 0 0 (by omega) (by omega) (by omega)]
    rw [Nat.sub_zero, Nat.zero_add]
    rw [go_pure_events E _ E.break_every E.break_every
      (by rw [List.length_drop]; omega) (le_refl _)]
  · rw [Events.iterate, breakCount,
      countP_go_of_break E _
        (fun idx => by
          have := eventItem_name_ne E "Break" hB (by decide) idx
          simpa using this)
        (by simp [Events.breakItem]) order 0 0 (by omega)]
    rw [if_pos ⟨h1, by omega⟩]

/-- Witness for `break_once_between_lunches` at `exC2` and the permutation
`[0, 1, 2, 3]`. -/
theorem break_once_between_lunches_witness :
    exC2.iterate [0, 1, 2, 3] =
        ([0, 1, 2, 3].take exC2.break_every).map exC2.eventItem ++
          exC2.breakItem :: ([0, 1, 2, 3].drop exC2.break_every).map exC2.eventItem
      ∧ breakCount (exC2.iterate [0, 1, 2, 3]) = 1 :=
  break_once_between_lunches exC2 [0, 1, 2, 3] (by decide) (by decide) (by decide) (by decide)

/-- C10: if the last event of the permutation lands exactly on a counter
boundary, the expansion ends with a trailing synthetic item: a Lunch when
the length equals `lunch_after`, a Break when it equals `break_every`
(and the lunch threshold is not reached, which would take precedence). -/
theorem trailing_synthetic_item (E : Events) (order : List Nat) (h0 : 0 < order.length) :
    (order.length = E.lunch_after → (E.iterate order).getLast? = some E.lunchItem)
    ∧ (order.length = E.break_every → order.length < E.lunch_after →
        (E.iterate order).getLast? = some E.breakItem) := by
  constructor
  · intro h
    exact getLast?_go_of_lunch E order 0 0 h0 (by omega)
  · intro h hlt
    exact getLast?_go_of_break E order 0 0 h0 (by omega) (by omega)

/-- Witness for `trailing_synthetic_item`: a 5-event permutation with the
default `break_every = 5` ends in a Break; a 10-event permutation with the
default `lunch_after = 10` ends in a Lunch. -/
theorem trailing_synthetic_item_witness :
    (exFive.iterate [0, 1, 2, 3, 4]).getLast? = some exFive.breakItem
    ∧ (exLunchW.iterate [0, 1, 2, 3, 4, 5, 6, 7, 8, 9]).getLast? = some exLunchW.lunchItem :=
  ⟨(trailing_synthetic_item exFive [0, 1, 2, 3, 4] (by decide)).2 (by decide) (by decide),
   (trailing_synthetic_item exLunchW [0, 1, 2, 3, 4, 5, 6, 7, 8, 9] (by decide)).1 (by decide)⟩

lemma getD_cons_set_perm :
    ∀ (t : List Nat) (m : Nat) (x : Nat), m < t.length →
      List.Perm (t.getD m 0 :: t.set m x) (x :: t) := by
  intro t
  induction t with
  | nil => intro m x h; simp at h
  | cons y t2 ih =>
    intro m x h
    cases m with
    | zero => simpa using List.Perm.swap x y t2
    | succ k =>
      have hk : k < t2.length := by simpa using h
      have e1 : (y :: t2).getD (k + 1) 0 :: (y :: t2).set (k + 1) x
          = t2.getD k 0 :: y :: t2.set k x := by simp [List.getD]
      rw [e1]
      exact (List.Perm.swap y (t2.getD k 0) (t2.set k x)).trans
        (((ih k x hk).cons y).trans (List.Perm.swap x y t2))

lemma swapPos_perm :
    ∀ (l : List Nat) (i j : Nat), i < l.length → j < l.length →
      List.Perm (swapPos l i j) l := by
  intro l
  induction l with
  | nil => intro i j hi _; simp at hi
  | cons x t ih =>
    intro i j hi hj
    cases i with
    | zero =>
      cases j with
      | zero => simp [swapPos]
      | succ m =>
        have hm : m < t.length := by simpa using hj
        have : swapPos (x :: t) 0 (m + 1) = t.getD m 0 :: t.set m x := by
          simp [swapPos, List.getD]
        rw [this]
        exact getD_cons_set_perm t m x hm
    | succ n =>
      have hn : n < t.length := by simpa using hi
      cases j with
      | zero =>
        have : swapPos (x :: t) (n + 1) 0 = t.getD n 0 :: t.set n x := by
          simp [swapPos, List.getD]
        rw [this]
        exact getD_cons_set_perm t n x hn
      | succ m =>
        have hm : m < t.length := by simpa using hj
        have : swapPos (x :: t) (n + 1) (m + 1) = x :: swapPos t n m := by
          simp [swapPos, List.getD]
        rw [this]
        exact (ih n m hn hm).cons x

lemma breedOne_perm (orders : List (List Nat)) (nbest : Nat) (d : Draw) (m : Nat)
    (o : List Nat) (hperm : ∀ x ∈ orders, x.Perm (List.range m))
    (h : breedOne orders nbest d = some o) : o.Perm (List.range m) := by
  by_cases h0 : nbest = 0
  · simp [breedOne, randint, h0] at h
  · cases hp : orders[d.pick % nbest]? with
    | none => simp [breedOne, randint, h0, hp] at h
    | some parent =>
      have hpp : parent.Perm (List.range m) := hperm parent (List.getElem?_mem hp)
      by_cases hs : d.doSwap
      · by_cases hl : parent.length = 0
        · have hpe : parent = [] := List.length_eq_zero.mp hl
          simp [breedOne, randint, h0, hp, hs, hpe] at h
        · have hpe : parent ≠ [] := by
            intro he
            rw [he] at hl
            simp at hl
          simp [breedOne, randint, h0, hp, hs, hpe] at h
          rw [← h]
          exact (swapPos_perm parent _ _ (Nat.mod_lt _ (by omega))
            (Nat.mod_lt _ (by omega))).trans hpp
      · simp [breedOne, randint, h0, hp, hs] at h
        rw [← h]
        exact hpp

/-- C8: the two-position swap mutation maps permutations to permutations,
so every candidate produced by a (successful) `compete` breeding loop is a
permutation of the event indices `0 .. m-1` whenever every current
candidate is one — the property initialization establishes with
`np.random.permutation(len(events))` and every later generation keeps. -/
theorem compete_preserves_permutation (orders : List (List Nat)) (nbest : Nat)
    (draws : List Draw) (m : Nat) (res : List (List Nat))
    (hperm : ∀ o ∈ orders, o.Perm (List.range m))
    (hres : compete orders nbest draws = some res) :
    ∀ o ∈ res, o.Perm (List.range m) := by
  induction draws generalizing res with
  | nil =>
    simp only [compete, List.mapM_nil, pure, Option.some_inj] at hres
    subst hres
    simp
  | cons d draws ih =>
    rw [compete, List.mapM_cons] at hres
    cases hb : breedOne orders nbest d with
    | none => rw [hb] at hres; simp at hres
    | some o1 =>
      rw [hb] at hres
      cases hrest : draws.mapM (breedOne orders nbest) with
      | none => rw [hrest] at hres; simp at hres
      | some os =>
        rw [hrest] at hres
        simp at hres
        subst hres
        intro o ho
        rcases List.mem_cons.mp ho with h | h
        · subst h
          exact breedOne_perm orders nbest d m o hperm hb
        · exact ih os (by rw [compete, hrest]) o h

/-- Witness for `compete_preserves_permutation`: breeding from the
population `[[1, 0]]` with a swap draw produces `[[0, 1]]`, a permutation
of `range 2`. -/
theorem compete_preserves_permutation_witness : List.Perm [0, 1] (List.range 2) :=
  compete_preserves_permutation [[1, 0]] 1 [⟨0, true, 0, 1⟩] 2 [[0, 1]]
    (by decide) (by decide) [0, 1] (by decide)

/-- C4, counterexample: with population size `n = 1` and `nbest = 2`,
the parent draw can be index `1`, and `self.order[1]` on a 1-row array
raises `IndexError` — `compete` does not clamp and does raise. -/
theorem compete_raises_when_nbest_exceeds_population :
    compete [[0]] 2 [⟨1, false, 0, 0⟩] = none := by decide

/-- C4, amended: `compete` has defined behavior for every `nbest`, but by
failing rather than clamping: with a nonempty event set, the breeding loop
succeeds exactly when every sampled parent index `pick % nbest` falls
inside the current population, and any draw beyond it raises (returns
`none`). -/
theorem compete_defined_iff_parents_in_range (orders : List (List Nat)) (nbest : Nat)
    (draws : List Draw) (hnb : 0 < nbest) (hne : ∀ o ∈ orders, o ≠ []) :
    (compete orders nbest draws).isSome = true ↔
      ∀ d ∈ draws, d.pick % nbest < orders.length := by
  have h0 : nbest ≠ 0 := Nat.pos_iff_ne_zero.mp hnb
  induction draws with
  | nil => rw [compete, List.mapM_nil]; simp
  | cons d draws ih =>
    rw [compete, List.mapM_cons]
    constructor
    · intro h d2 hd2
      rcases List.mem_cons.mp hd2 with hh | hh
      · subst hh
        by_contra hout
        have hnone : orders[d2.pick % nbest]? = none := List.getElem?_eq_none (by omega)
        have hbn : breedOne orders nbest d2 = none := by
          simp [breedOne, randint, h0, hnone]
        rw [hbn] at h
        simp at h
      · cases hb : breedOne orders nbest d with
        | none => rw [hb] at h; simp at h
        | some o1 =>
          rw [hb] at h
          simp only [Option.bind_eq_bind, Option.some_bind] at h
          cases hrest : draws.mapM (breedOne orders nbest) with
          | none => rw [hrest] at h; simp at h
          | some os =>
            have hcs : (compete orders nbest draws).isSome = true := by
              rw [compete, hrest]
              rfl
            exact (ih.mp hcs) d2 hh
    · intro h
      have hd : d.pick % nbest < orders.length := h d (List.mem_cons_self d draws)
      have hparent : orders[d.pick % nbest]? = some (orders.getD (d.pick % nbest) []) := by
        rw [List.getElem?_eq_getElem hd, List.getD_eq_getElem _ _ hd]
      have hmem : orders.getD (d.pick % nbest) [] ∈ orders := by
        rw [List.getD_eq_getElem _ _ hd]
        exact List.getElem_mem hd
      have hnn : orders.getD (d.pick % nbest) [] ≠ [] := hne _ hmem
      have hbs : (breedOne orders nbest d).isSome = true := by
        cases hpar2 : orders[d.pick % nbest]? with
        | none =>
          rw [hpar2] at hparent
          exact absurd hparent (by simp)
        | some parent =>
          have hpn : parent ≠ [] := by
            have hpe : parent = orders.getD (d.pick % nbest) [] := by
              rw [hpar2] at hparent
              exact Option.some_inj.mp hparent
            rw [hpe]
            exact hnn
          by_cases hs : d.doSwap
          · simp [breedOne, randint, h0, hpar2, hs, hpn]
          · simp [breedOne, randint, h0, hpar2, hs]
      have hrs : (draws.mapM (breedOne orders nbest)).isSome = true := by
        have hc := ih.mpr (fun d2 hd2 => h d2 (List.mem_cons_of_mem d hd2))
        rw [compete] at hc
        exact hc
      rcases Option.isSome_iff_exists.mp hbs with ⟨o1, hbo⟩
      rcases Option.isSome_iff_exists.mp hrs with ⟨os, hro⟩
      rw [hbo]
      simp only [Option.bind_eq_bind, Option.some_bind]
      rw [hro]
      rfl

/-- Witness for `compete_defined_iff_parents_in_range`: with one nonempty
candidate, `nbest = 2` and a single draw picking index `0`, the loop
succeeds. -/
theorem compete_defined_iff_parents_in_range_witness :
    (compete [[0]] 2 [⟨0, true, 0, 0⟩]).isSome = true :=
  (compete_defined_iff_parents_in_range [[0]] 2 [⟨0, true, 0, 0⟩]
    (by decide) (by decide)).mpr (by decide)

/-- C3: with zero events, scoring the empty candidate returns `0` and
`refresh` succeeds, but `compete` crashes whenever the mutation branch is
taken: `np.random.randint(self.order.shape[1], size=2)` is
`np.random.randint(0)`, which raises `ValueError` (modelled `none`).  The
spec requires that this degenerate input "must not crash". -/
theorem empty_events_compete_crashes :
    score exEmpty exSH (Time.ofHM 9 30) [] = 0
    ∧ refresh exEmpty exSH (Time.ofHM 9 30) [[]] = ([[]], [0])
    ∧ compete [[]] 4 [⟨0, true, 0, 0⟩] = none := by
  refine ⟨by decide, by decide, by decide⟩

/-- C7: after any `refresh`, the scores array is sorted ascending and the
pairing with the candidates is preserved: the scores list is exactly the
scores of the sorted candidate list, position by position. -/
theorem refresh_sorted_and_aligned (E : Events) (SH : List (String × Stakeholder))
    (t0 : Time) (orders : List (List Nat)) :
    List.Sorted (· ≤ ·) (refresh E SH t0 orders).2
    ∧ (refresh E SH t0 orders).2 = (refresh E SH t0 orders).1.map (score E SH t0) := by
  constructor
  · have hs : List.Sorted (fun p q : Nat × List Nat => p.1 ≤ q.1)
        (sort_by_rank (orders.map (fun o => (score E SH t0 o, o)))) :=
      List.sorted_insertionSort _ _
    simp only [refresh]
    exact List.Pairwise.map Prod.fst (fun a b hab => hab) hs
  · have hperm : List.Perm (sort_by_rank (orders.map (fun o => (score E SH t0 o, o))))
        (orders.map (fun o => (score E SH t0 o, o))) :=
      List.perm_insertionSort _ _
    have hall : ∀ p ∈ sort_by_rank (orders.map (fun o => (score E SH t0 o, o))),
        p.1 = score E SH t0 p.2 := by
      intro p hp
      have hp2 : p ∈ orders.map (fun o => (score E SH t0 o, o)) := hperm.mem_iff.mp hp
      rcases List.mem_map.mp hp2 with ⟨o, _, rfl⟩
      rfl
    simp only [refresh]
    rw [List.map_map]
    exact (List.map_congr_left (fun p hp => (hall p hp).symm)).symm

/-- C9: `not_before(T)` yields 1 exactly on instants strictly before `T`
(0 at `T` or later), and `not_after(T)` yields 1 exactly on instants
strictly after `T` (0 at `T` or earlier). -/
theorem not_before_not_after_values (T x : Time) :
    (constraintValue (not_before T) x = 1 ↔ x < T)
    ∧ (constraintValue (not_before T) x = 0 ↔ ¬x < T)
    ∧ (constraintValue (not_after T) x = 1 ↔ T < x)
    ∧ (constraintValue (not_after T) x = 0 ↔ ¬T < x) := by
  simp only [constraintValue, not_before, not_after]
  refine ⟨?_, ?_, ?_, ?_⟩ <;> (split_ifs with h <;> simp_all)

lemma iwtGo_spec :
    ∀ (items : List Item) (shs : List (String × WaitTimeCounter)) (t : Time) (viol : Nat),
      (iwtGo items shs t viol).1 = shs.map (fun p => (p.1, (runWTC items p.2 t).1))
      ∧ (iwtGo items shs t viol).2 =
          viol + itemViolations items t +
            (shs.map (fun p => (runWTC items p.2 t).2)).sum := by
  intro items
  induction items with
  | nil =>
    intro shs t viol
    constructor
    · simp [iwtGo, runWTC]
    · simp [iwtGo, runWTC, itemViolations]
  | cons it rest ih =>
    intro shs t viol
    constructor
    · simp only [iwtGo]
      rw [(ih _ _ _).1]
      rw [List.map_map, List.map_map]
      rfl
    · simp only [iwtGo]
      rw [(ih _ _ _).2]
      have hA : (shs.map (fun p => (p.1, p.2.append it.name it.duration t))).map
            (fun p => p.2.1) =
          shs.map (fun p => (p.2.append it.name it.duration t).1) := by
        rw [List.map_map]
        rfl
      have hB : ((shs.map (fun p => (p.1, p.2.append it.name it.duration t))).map
            (fun p => (p.1, p.2.2))).map
              (fun p => (runWTC rest p.2 (t + it.duration)).2) =
          shs.map (fun p => (runWTC rest (p.2.append it.name it.duration t).2
            (t + it.duration)).2) := by
        rw [List.map_map, List.map_map]
        rfl
      rw [hA, hB]
      have hC : itemViolations (it :: rest) t =
          violSum it.constraints t + itemViolations rest (t + it.duration) := rfl
      have hD : shs.map (fun p => (runWTC (it :: rest) p.2 t).2) =
          shs.map (fun p => (p.2.append it.name it.duration t).1 +
            (runWTC rest (p.2.append it.name it.duration t).2 (t + it.duration)).2) := rfl
      rw [hC, hD]
      have hsum : ∀ (l : List (String × WaitTimeCounter))
          (f g : (String × WaitTimeCounter) → Nat),
          (l.map (fun p => f p + g p)).sum = (l.map f).sum + (l.map g).sum := by
        intro l f g
        induction l with
        | nil => simp
        | cons a l ihl =>
          simp only [List.map_cons, List.sum_cons, ihl]
          omega
      rw [hsum]
      omega

/-- C5: the score equals `1000 ×` total violations (the items' own
constraints evaluated at their start times plus every stakeholder's
wait-counter violations, clock starting at `t0` and advanced by each
item's duration) plus the sum of all stakeholders' `total_time`, where
each stakeholder's quantities are computed by its own independent pass. -/
theorem score_eq_spec_formula (E : Events) (SH : List (String × Stakeholder))
    (t0 : Time) (order : List Nat) :
    score E SH t0 order = scoreSpec E SH t0 order := by
  have h := iwtGo_spec (E.iterate order)
    (SH.map (fun p => (p.1, WaitTimeCounter.init p.2))) t0 0
  rw [score, individual_wait_times, scoreSpec]
  rw [h.1, h.2]
  dsimp only
  simp only [List.map_map, Nat.zero_add]
  rfl

lemma runWTC_fst_eq_stateAfter :
    ∀ (items : List Item) (c : WaitTimeCounter) (t : Time),
      (runWTC items c t).1 = stateAfter c items := by
  intro items
  induction items with
  | nil => intro c t; rfl
  | cons it rest ih =>
    intro c t
    show (runWTC rest (c.append it.name it.duration t).2 (t + it.duration)).1 = _
    rw [ih]
    rfl

lemma filter_unseen_eq_nil_iff (F L : List String) :
    (F.filter (fun f => !decide (f ∈ L)) = []) ↔ (F.all (fun f => decide (f ∈ L)) = true) := by
  rw [List.filter_eq_nil_iff, List.all_eq_true]
  constructor
  · intro h f hf
    simpa using h f hf
  · intro h f hf
    simpa using h f hf

lemma waitClosed_append (F : List String) (p : List Item) (x : Item) :
    waitClosed F (p ++ [x]) = waitClosed F p +
      (if seenAny F (p ++ [x]) && !seenAll F p then x.duration else 0) := by
  rw [waitClosed, waitClosed]
  have hlen : (p ++ [x]).length = p.length + 1 := by simp
  rw [hlen, Finset.sum_range_succ]
  congr 1
  · refine Finset.sum_congr rfl (fun k hk => ?_)
    have hk' : k < p.length := Finset.mem_range.mp hk
    rw [countedAt, countedAt,
      List.take_append_of_le_length (by omega),
      List.take_append_of_le_length (by omega),
      List.getD_append _ _ _ _ hk']
  · have ht1 : (p ++ [x]).take (p.length + 1) = p ++ [x] := by
      rw [← hlen, List.take_length]
    have ht0 : (p ++ [x]).take p.length = p := List.take_left p [x]
    have hg : (p ++ [x]).getD p.length dummyItem = x := by
      rw [List.getD_append_right _ _ _ _ (le_refl _)]
      simp [List.getD]
    rw [countedAt, ht1, ht0, hg]

lemma stateAfter_closed (F : List String) (cs : List Constraint) (hF : F.Nodup) :
    ∀ (p : List Item),
      stateAfter ⟨F, cs, false, 0⟩ p =
        ⟨F.filter (fun f => !decide (f ∈ p.map Item.name)), cs,
          seenAny F p && !seenAll F p, waitClosed F p⟩ := by
  intro p
  induction p using List.reverseRecOn with
  | nil =>
    simp [stateAfter, seenAny, seenAll, waitClosed]
  | append_singleton p x ih =>
    have hstep : stateAfter (⟨F, cs, false, 0⟩ : WaitTimeCounter) (p ++ [x]) =
        wtcStep (stateAfter ⟨F, cs, false, 0⟩ p) x := by
      rw [stateAfter, stateAfter, List.foldl_append]
      rfl
    rw [hstep, ih, waitClosed_append]
    simp only [wtcStep, WaitTimeCounter.append]
    by_cases hmem : x.name ∈ F.filter (fun f => !decide (f ∈ p.map Item.name))
    · have hxF : x.name ∈ F ∧ ¬(x.name ∈ p.map Item.name) := by
        have h := List.mem_filter.mp hmem
        simpa using h
      have hobs : (F.filter (fun f => !decide (f ∈ p.map Item.name))).erase x.name =
          F.filter (fun f => !decide (f ∈ (p ++ [x]).map Item.name)) := by
        rw [List.Nodup.erase_eq_filter (hF.filter _) x.name, List.filter_filter]
        refine List.filter_congr (fun a _ => ?_)
        by_cases hax : a = x.name
        · subst hax
          simp [hxF.2]
        · simp [hax]
      have hseenAny : seenAny F (p ++ [x]) = true := by
        rw [seenAny, List.any_append]
        have : List.any [x] (fun it => decide (it.name ∈ F)) = true := by
          simp [hxF.1]
        rw [this]
        simp
      have hallp : seenAll F p = false := by
        rw [seenAll]
        by_contra hcon
        have halltrue : F.all (fun f => decide (f ∈ p.map Item.name)) = true := by
          revert hcon
          cases F.all (fun f => decide (f ∈ p.map Item.name)) with
          | true => intro _; rfl
          | false => intro hcon; exact absurd rfl hcon
        have := List.all_eq_true.mp halltrue x.name hxF.1
        exact hxF.2 (of_decide_eq_true this)
      simp only [if_pos hmem, WaitTimeCounter.mk.injEq]
      refine ⟨hobs, trivial, ?_, ?_⟩
      · rw [hobs, hseenAny]
        by_cases hnil : F.filter (fun f => !decide (f ∈ (p ++ [x]).map Item.name)) = []
        · rw [if_pos hnil]
          have hall : seenAll F (p ++ [x]) = true :=
            (filter_unseen_eq_nil_iff F _).mp hnil
          simp [hall]
        · rw [if_neg hnil]
          have hall : seenAll F (p ++ [x]) = false := by
            rw [seenAll]
            by_contra hcon
            have halltrue : F.all (fun f => decide (f ∈ (p ++ [x]).map Item.name)) = true := by
              revert hcon
              cases F.all (fun f => decide (f ∈ (p ++ [x]).map Item.name)) with
              | true => intro _; rfl
              | false => intro hcon; exact absurd rfl hcon
            exact hnil ((filter_unseen_eq_nil_iff F _).mpr halltrue)
          simp [hall]
      · rw [hseenAny, hallp]
        simp
    · have himp : x.name ∈ F → x.name ∈ p.map Item.name := by
        intro hf
        by_contra h2
        exact hmem (List.mem_filter.mpr ⟨hf, by simpa using h2⟩)
      have hAny : seenAny F (p ++ [x]) = seenAny F p := by
        rw [seenAny, seenAny, List.any_append]
        by_cases hf : x.name ∈ F
        · rcases List.mem_map.mp (himp hf) with ⟨it, hit, hname⟩
          have h1 : List.any p (fun it => decide (it.name ∈ F)) = true :=
            List.any_eq_true.mpr ⟨it, hit, by rw [hname]; simpa using hf⟩
          rw [h1]
          simp
        · have h0 : List.any [x] (fun it => decide (it.name ∈ F)) = false := by
            simp [hf]
          rw [h0]
          simp
      have hAll : seenAll F (p ++ [x]) = seenAll F p := by
        rw [seenAll, seenAll, Bool.eq_iff_iff, List.all_eq_true, List.all_eq_true]
        constructor
        · intro h f hf
          have := h f hf
          simp at this ⊢
          rcases this with h1 | h1
          · exact h1
          · subst h1
            exact List.mem_map.mp (himp hf)
        · intro h f hf
          have := h f hf
          simp at this ⊢
          exact Or.inl this
      simp only [if_neg hmem, WaitTimeCounter.mk.injEq]
      refine ⟨?_, trivial, ?_, ?_⟩
      · refine List.filter_congr (fun a ha => ?_)
        by_cases hax : a = x.name
        · subst hax
          have haL : x.name ∈ p.map Item.name := himp ha
          simp [haL]
        · simp [hax]
      · rw [hAny, hAll]
        by_cases hnil : F.filter (fun f => !decide (f ∈ p.map Item.name)) = []
        · rw [if_pos hnil]
          have hall : seenAll F p = true := (filter_unseen_eq_nil_iff F _).mp hnil
          simp [hall]
        · rw [if_neg hnil]
      · rw [hAny]
        by_cases hact : (seenAny F p && !seenAll F p) = true
        · rw [hact]
          simp
        · have hf : (seenAny F p && !seenAll F p) = false := by
            revert hact
            cases seenAny F p && !seenAll F p with
            | true => intro hcon; exact absurd rfl hcon
            | false => intro _; rfl
          rw [hf]
          simp

lemma getD_map_name (p : List Item) (j : Nat) (hj : j < p.length) :
    (p.map Item.name).getD j "" = (p.getD j dummyItem).name := by
  have hj2 : j < (p.map Item.name).length := by simpa using hj
  rw [List.getD_eq_getElem _ _ hj2, List.getElem_map, List.getD_eq_getElem _ _ hj]

lemma getD_mem_take (L : List String) (m j : Nat) (hj : j < L.length) (hjm : j < m) :
    L.getD j "" ∈ L.take m := by
  have hidx : j < (L.take m).length := by
    rw [List.length_take]
    omega
  have he : (L.take m)[j] = L.getD j "" := by
    rw [List.getElem_take L, List.getD_eq_getElem _ _ hj]
  exact he ▸ List.getElem_mem hidx

lemma getD_mem_drop (L : List String) (m j : Nat) (hj : j < L.length) (hmj : m ≤ j) :
    L.getD j "" ∈ L.drop m := by
  have hidx : j - m < (L.drop m).length := by
    rw [List.length_drop]
    omega
  have he : (L.drop m)[j - m] = L.getD j "" := by
    rw [List.getElem_drop, List.getD_eq_getElem _ _ hj]
    congr 1
    omega
  exact he ▸ List.getElem_mem hidx

lemma mem_take_index (L : List String) (m : Nat) (f : String) (h : f ∈ L.take m) :
    ∃ j, j < m ∧ j < L.length ∧ L.getD j "" = f := by
  rcases List.mem_iff_getElem.mp h with ⟨j, hj, hje⟩
  have h1 : j < m := by
    rw [List.length_take] at hj
    omega
  have h2 : j < L.length := by
    rw [List.length_take] at hj
    omega
  refine ⟨j, h1, h2, ?_⟩
  rw [List.getD_eq_getElem _ _ h2, ← List.getElem_take L, hje]

lemma seenAny_take_eq (F : List String) (p : List Item) (firstI : Nat)
    (hf1 : firstI < p.length) (hf2 : (p.getD firstI dummyItem).name ∈ F)
    (hf3 : ∀ j, j < firstI → (p.getD j dummyItem).name ∉ F) :
    ∀ m : Nat, seenAny F (p.take m) = decide (firstI < m) := by
  intro m
  rw [Bool.eq_iff_iff, decide_eq_true_eq, seenAny, List.any_eq_true]
  constructor
  · rintro ⟨it, hit, hdec⟩
    rcases List.mem_iff_getElem.mp hit with ⟨j, hj, hje⟩
    have hjm : j < m := by
      rw [List.length_take] at hj
      omega
    have hjp : j < p.length := by
      rw [List.length_take] at hj
      omega
    have hname : (p.getD j dummyItem).name ∈ F := by
      rw [List.getD_eq_getElem _ _ hjp, ← List.getElem_take p, hje]
      exact of_decide_eq_true hdec
    by_contra hcon
    exact hf3 j (by omega) hname
  · intro hm
    have hj2 : firstI < (p.take m).length := by
      rw [List.length_take]
      omega
    refine ⟨(p.take m)[firstI], List.getElem_mem hj2, ?_⟩
    rw [List.getElem_take p, ← List.getD_eq_getElem _ _ hf1]
    exact decide_eq_true hf2

lemma seenAll_take_eq (F : List String) (p : List Item) (lastI : Nat)
    (hl1 : lastI < p.length) (hl2 : (p.getD lastI dummyItem).name ∈ F)
    (hl3 : ∀ j, lastI < j → j < p.length → (p.getD j dummyItem).name ∉ F)
    (hcut : ∀ f ∈ F, (p.map Item.name).count f = 1) :
    ∀ m : Nat, seenAll F (p.take m) = decide (lastI < m) := by
  intro m
  rw [Bool.eq_iff_iff, decide_eq_true_eq, seenAll, List.all_eq_true]
  have hlen : (p.map Item.name).length = p.length := by simp
  constructor
  · intro h
    by_contra hcon
    have hmle : m ≤ lastI := by omega
    have hdec := h _ hl2
    have hmem : (p.getD lastI dummyItem).name ∈ (p.map Item.name).take m := by
      rw [← List.map_take]
      exact of_decide_eq_true hdec
    have h1 : 0 < ((p.map Item.name).take m).count ((p.getD lastI dummyItem).name) :=
      List.count_pos_iff.mpr hmem
    have h2 : 0 < ((p.map Item.name).drop m).count ((p.getD lastI dummyItem).name) := by
      apply List.count_pos_iff.mpr
      have hd := getD_mem_drop (p.map Item.name) m lastI (by omega) hmle
      rw [getD_map_name p lastI hl1] at hd
      exact hd
    have hsplit : ((p.map Item.name).take m).count ((p.getD lastI dummyItem).name) +
        ((p.map Item.name).drop m).count ((p.getD lastI dummyItem).name) = 1 := by
      rw [← List.count_append, List.take_append_drop]
      exact hcut _ hl2
    omega
  · intro hm f hf
    have hcnt := hcut f hf
    have hfmem : f ∈ p.map Item.name := List.count_pos_iff.mp (by omega)
    rcases List.mem_iff_getElem.mp hfmem with ⟨j, hjL, hje⟩
    have hjp : j < p.length := by
      rw [hlen] at hjL
      exact hjL
    have hnamej : (p.getD j dummyItem).name = f := by
      rw [← getD_map_name p j hjp, List.getD_eq_getElem _ _ hjL, hje]
    have hjlast : j ≤ lastI := by
      by_contra hc
      exact hl3 j (by omega) hjp (by rw [hnamej]; exact hf)
    apply decide_eq_true
    rw [List.map_take]
    have ht := getD_mem_take (p.map Item.name) m j hjL (by omega)
    rw [getD_map_name p j hjp, hnamej] at ht
    exact ht

/-- C6, counterexample: for the stakeholder with focus `{A, B}` and the
expanded agenda of two events `A`, `X` (`B` never occurs), the window never
closes, so `total_time` is 30 (both items), not the 15 the claim's
"first focus item through last focus item" (positions 0 through 0) demands. -/
theorem wait_window_fails_without_all_focus :
    ¬((runWTC (exAX.iterate [0, 1]) (WaitTimeCounter.init exShAB) 0).1.total_time =
      Finset.sum (Finset.Icc 0 0)
        (fun k => ((exAX.iterate [0, 1]).getD k dummyItem).duration)) := by
  decide

/-- C6, amended: provided every focus name occurs exactly once among the
agenda's labels (as holds for a permutation of distinctly-named events
whose names include the focus set), `total_time` after a full pass equals
the sum of the durations of all items from the first focus item through
the last focus item inclusive, and `active` is false after every prefix
that ends before the first focus item or after the last one (in
particular at the end).  `firstI`/`lastI` are the positions of the first
and last items whose label lies in the focus set. -/
theorem wait_time_window (sh : Stakeholder) (p : List Item) (t0 : Time)
    (firstI lastI : Nat) (hF : sh.focus.Nodup)
    (hcut : ∀ f ∈ sh.focus, (p.map Item.name).count f = 1)
    (hf1 : firstI < p.length) (hf2 : (p.getD firstI dummyItem).name ∈ sh.focus)
    (hf3 : ∀ j, j < firstI → (p.getD j dummyItem).name ∉ sh.focus)
    (hl1 : lastI < p.length) (hl2 : (p.getD lastI dummyItem).name ∈ sh.focus)
    (hl3 : ∀ j, lastI < j → j < p.length → (p.getD j dummyItem).name ∉ sh.focus) :
    (runWTC p (WaitTimeCounter.init sh) t0).1.total_time =
        Finset.sum (Finset.Icc firstI lastI) (fun k => (p.getD k dummyItem).duration)
    ∧ (runWTC p (WaitTimeCounter.init sh) t0).1.active = false
    ∧ (List.range (firstI + 1)).all (fun m => !activeAfter sh p m) = true
    ∧ (List.range (p.length + 1)).all
        (fun m => decide (m ≤ lastI) || !activeAfter sh p m) = true := by
  have hclosed := stateAfter_closed sh.focus sh.constraints hF
  have hrun : (runWTC p (WaitTimeCounter.init sh) t0).1 =
      stateAfter (WaitTimeCounter.init sh) p := runWTC_fst_eq_stateAfter p _ t0
  have ha := seenAny_take_eq sh.focus p firstI hf1 hf2 hf3
  have hb := seenAll_take_eq sh.focus p lastI hl1 hl2 hl3 hcut
  have hinit : WaitTimeCounter.init sh = (⟨sh.focus, sh.constraints, false, 0⟩ :
      WaitTimeCounter) := rfl
  have hbfull : seenAll sh.focus p = true := by
    have hh := hb p.length
    rw [List.take_length] at hh
    rw [hh]
    exact decide_eq_true (by omega)
  refine ⟨?_, ?_, ?_, ?_⟩
  · rw [hrun, hinit, hclosed]
    show waitClosed sh.focus p = _
    rw [waitClosed]
    have hcond : ∀ k ∈ Finset.range p.length,
        (if countedAt sh.focus p k then (p.getD k dummyItem).duration else 0) =
          (if firstI ≤ k ∧ k ≤ lastI then (p.getD k dummyItem).duration else 0) := by
      intro k hk
      have hcc : countedAt sh.focus p k = decide (firstI ≤ k ∧ k ≤ lastI) := by
        rw [countedAt, ha (k + 1), hb k]
        by_cases h1 : firstI ≤ k
        · by_cases h2 : k ≤ lastI
          · rw [decide_eq_true (show firstI < k + 1 by omega),
              decide_eq_false (show ¬lastI < k by omega),
              decide_eq_true (show firstI ≤ k ∧ k ≤ lastI from ⟨h1, h2⟩)]
            rfl
          · rw [decide_eq_true (show firstI < k + 1 by omega),
              decide_eq_true (show lastI < k by omega),
              decide_eq_false (show ¬(firstI ≤ k ∧ k ≤ lastI) from fun hc => h2 hc.2)]
            rfl
        · rw [decide_eq_false (show ¬firstI < k + 1 by omega),
            decide_eq_false (show ¬(firstI ≤ k ∧ k ≤ lastI) from fun hc => h1 hc.1)]
          rfl
      rw [hcc]
      simp only [decide_eq_true_eq]
    rw [Finset.sum_congr rfl hcond, ← Finset.sum_filter]
    have hset : (Finset.range p.length).filter (fun k => firstI ≤ k ∧ k ≤ lastI) =
        Finset.Icc firstI lastI := by
      ext k
      simp only [Finset.mem_filter, Finset.mem_range, Finset.mem_Icc]
      omega
    rw [hset]
  · rw [hrun, hinit, hclosed]
    show (seenAny sh.focus p && !seenAll sh.focus p) = false
    rw [hbfull]
    simp
  · rw [List.all_eq_true]
    intro m hm
    have hm2 : m ≤ firstI := by
      have := List.mem_range.mp hm
      omega
    show (!activeAfter sh p m) = true
    rw [activeAfter, hinit, hclosed (p.take m)]
    show (!(seenAny sh.focus (p.take m) && !seenAll sh.focus (p.take m))) = true
    rw [ha m, decide_eq_false (show ¬firstI < m by omega)]
    rfl
  · rw [List.all_eq_true]
    intro m hm
    by_cases hc : m ≤ lastI
    · show (decide (m ≤ lastI) || !activeAfter sh p m) = true
      rw [decide_eq_true hc]
      rfl
    · show (decide (m ≤ lastI) || !activeAfter sh p m) = true
      rw [decide_eq_false hc, activeAfter, hinit, hclosed (p.take m)]
      show (false || !(seenAny sh.focus (p.take m) && !seenAll sh.focus (p.take m))) = true
      rw [hb m, decide_eq_true (show lastI < m by omega)]
      simp

/-- Witness for `wait_time_window`: focus `{A, B}`, agenda
`A(10), X(5), B(20), Y(7)`, window positions 0 through 2, total 35. -/
theorem wait_time_window_witness :
    (runWTC exItems (WaitTimeCounter.init exShAB) 0).1.total_time =
        Finset.sum (Finset.Icc 0 2) (fun k => (exItems.getD k dummyItem).duration)
    ∧ (runWTC exItems (WaitTimeCounter.init exShAB) 0).1.active = false
    ∧ (List.range (0 + 1)).all (fun m => !activeAfter exShAB exItems m) = true
    ∧ (List.range (exItems.length + 1)).all
        (fun m => decide (m ≤ 2) || !activeAfter exShAB exItems m) = true :=
  wait_time_window exShAB exItems 0 0 2 (by decide) (by decide) (by decide) (by decide)
    (fun j hj => absurd hj (Nat.not_lt_zero j)) (by decide) (by decide)
    (by
      intro j h1 h2
      have h4 : j < 4 := by simpa [exItems] using h2
      interval_cases j
      decide)
